import Mathlib

/-!
Verification development for the RepoInsight catalog service.

The embedding follows the repository's source:
  * `app/models/repository.py`   → `Repository`
  * `app/models/ai_analysis.py`  → `AIAnalysis`
  * `app/api/routes/repositories.py` → `repo_with_analysis`, `get_repositories`,
    `get_top_repositories`, `get_repository_detail`
  * `app/api/routes/analysis.py` → `analyze_project`

Database sessions are modelled by explicit state passing: every operation takes
the store and returns the (possibly updated) store together with its result.
The SQLAlchemy primitives used by the routes (`query(...).all()`,
`query(...).filter(...).first()`, `ilike`, `order_by(...desc())`,
`offset`, `limit`) are modelled as pure reads over lists kept in the store's
natural order.  `DateTime` columns are modelled as integers (`Option Int`
when the column is nullable), strings as `String`, integers as `Int`.
-/

/-- `app/models/repository.py` — the `repository` table.  Nullable columns are
`Option`; `DateTime` values are modelled as `Int` instants. -/
structure Repository where
  id : Int
  created_at : Int
  updated_at : Option Int
  deleted_at : Option Int
  full_name : String
  name : String
  owner : String
  description : Option String
  url : String
  stars : Int
  forks : Int
  language : Option String
  topics : Option String
  readme : Option String
  last_pushed_at : Option Int
  is_archived : Bool
  license : Option String
  default_branch : Option String
  open_issues : Int
  watchers : Int
  size : Int
  has_issues : Bool
  has_projects : Bool
  has_wiki : Bool
  has_pages : Bool
  has_downloads : Bool
  is_template : Bool
  last_analyzed_at : Option Int
  analysis_status : String
  search_keyword : Option String
  search_rank : Option Int
  last_crawled_at : Option Int
deriving DecidableEq, Repr

/-- `app/models/ai_analysis.py` — the `ai_analysis` table (`url` is declared
`unique=True` there; that invariant appears as a `Nodup` hypothesis where a
theorem needs it). -/
structure AIAnalysis where
  id : Int
  created_at : Int
  updated_at : Option Int
  url : String
  content : Option String
  status : String
  error_message : Option String
  analysis_type : String
  model_version : Option String
  tokens_used : Option Int
deriving DecidableEq, Repr

/-- The backing store visible to the routes: both tables, each list in the
store's natural order. -/
structure Store where
  repos : List Repository
  analyses : List AIAnalysis
deriving DecidableEq, Repr

/-- The `{content, status}` JSON object built by `repo_with_analysis` and
`analyze_project`. -/
structure AnalysisView where
  content : Option String
  status : String
deriving DecidableEq, Repr

/-- One element of the JSON array returned by the repository routes: the full
repository row plus its `analysis` key. -/
structure EnrichedRepo where
  repo : Repository
  analysis : Option AnalysisView
deriving DecidableEq, Repr

/-- Result of `GET /repositories/{repo_id}`: either the `{"error": "Not found"}`
payload (returned with HTTP 200) or a full enriched record. -/
inductive RepoDetailResult where
  | notFound : RepoDetailResult
  | found : EnrichedRepo → RepoDetailResult
deriving DecidableEq, Repr

/-! ### SQL `ILIKE` pattern matching

`Repository.full_name.ilike(f"%{q}%")` compiles to PostgreSQL `ILIKE`, whose
pattern language treats `%` as "any sequence", `_` as "any single character"
and backslash as an escape; comparison is case-insensitive.  A pattern ending
in a bare escape character matches nothing (PostgreSQL raises an error there;
the model returns `false`). -/

/-- Matching of a leading `%`: try the continuation `f` on every suffix of the
string. -/
def matchPct (f : List Char → Bool) : List Char → Bool
  | [] => f []
  | c :: s => f (c :: s) || matchPct f s

/-- PostgreSQL `ILIKE` matching of a pattern (first argument) against a string
(second argument), both as character lists. -/
def likeMatch : List Char → List Char → Bool
  | [], s => s.isEmpty
  | pc :: ps, s =>
    if pc = '%' then matchPct (likeMatch ps) s
    else if pc = '_' then
      match s with
      | [] => false
      | _ :: s2 => likeMatch ps s2
    else if pc = '\\' then
      match ps with
      | [] => false
      | pc2 :: ps2 =>
        match s with
        | [] => false
        | c :: s2 => (pc2.toLower = c.toLower) && likeMatch ps2 s2
    else
      match s with
      | [] => false
      | c :: s2 => (pc.toLower = c.toLower) && likeMatch ps s2

/-- `value ILIKE pattern`. -/
def ilike (value pat : String) : Bool :=
  likeMatch pat.data value.data

/-- The `if q: query = query.filter(Repository.full_name.ilike(f"%{q}%"))` step
of `get_repositories`; Python treats both `None` and `""` as falsy. -/
def applyQueryFilter (q : Option String) (l : List Repository) : List Repository :=
  match q with
  | none => l
  | some s => if s = "" then l else l.filter (fun r => ilike r.full_name ("%" ++ s ++ "%"))

/-! ### Sort orders used by `get_top_repositories` -/

/-- `order_by(Repository.stars.desc())`: `a` may precede `b` iff `b.stars ≤ a.stars`. -/
def starsGE (a b : Repository) : Prop := b.stars ≤ a.stars

instance : DecidableRel starsGE := fun a b => inferInstanceAs (Decidable (b.stars ≤ a.stars))

instance : IsTotal Repository starsGE := ⟨fun a b => le_total b.stars a.stars⟩

instance : IsTrans Repository starsGE := ⟨fun _ _ _ h1 h2 => le_trans h2 h1⟩

/-- Comparison of nullable timestamps with `none` as the greatest value:
PostgreSQL sorts NULLs first under `DESC`. -/
def optTimeLe (a b : Option Int) : Prop :=
  match b with
  | none => True
  | some vb =>
    match a with
    | none => False
    | some va => va ≤ vb

instance : DecidableRel optTimeLe := fun a b =>
  match a, b with
  | _, none => isTrue True.intro
  | none, some _ => isFalse (fun h => h)
  | some x, some y => inferInstanceAs (Decidable (x ≤ y))

theorem optTimeLe_total : ∀ a b : Option Int, optTimeLe a b ∨ optTimeLe b a
  | _, none => Or.inl True.intro
  | none, some _ => Or.inr True.intro
  | some x, some y => le_total x y

theorem optTimeLe_trans : ∀ {a b c : Option Int}, optTimeLe a b → optTimeLe b c → optTimeLe a c
  | _, _, none, _, _ => True.intro
  | _, none, some _, _, h2 => absurd h2 not_false
  | none, some _, some _, h1, _ => absurd h1 not_false
  | some _, some _, some _, h1, h2 => le_trans h1 h2

/-- `order_by(Repository.updated_at.desc())`. -/
def updatedGE (a b : Repository) : Prop := optTimeLe b.updated_at a.updated_at

instance : DecidableRel updatedGE := fun a b =>
  inferInstanceAs (Decidable (optTimeLe b.updated_at a.updated_at))

instance : IsTotal Repository updatedGE :=
  ⟨fun a b => optTimeLe_total b.updated_at a.updated_at⟩

instance : IsTrans Repository updatedGE :=
  ⟨fun _ _ _ h1 h2 => optTimeLe_trans h2 h1⟩

/-! ### Database read primitives (one per SQLAlchemy query shape used) -/

/-- `db.query(Repository)` materialised: a read of the repository table. -/
def db_query_repos (db : Store) : Store × List Repository := (db, db.repos)

/-- `db.query(AIAnalysis).filter(AIAnalysis.url == u).first()`. -/
def db_query_analysis_first (db : Store) (u : String) : Store × Option AIAnalysis :=
  (db, db.analyses.find? (fun a => a.url == u))

/-- `db.query(Repository).filter(Repository.id == repo_id).first()`. -/
def db_query_repo_first_by_id (db : Store) (rid : Int) : Store × Option Repository :=
  (db, db.repos.find? (fun r => r.id == rid))

/-! ### The routes -/

/-- `repo_with_analysis(repo, db)` from `app/api/routes/repositories.py`:
copy the row and attach `{'content': ..., 'status': ...}` or `None`. -/
def repo_with_analysis (db : Store) (r : Repository) : Store × EnrichedRepo :=
  let p := db_query_analysis_first db r.url
  match p.2 with
  | some a => (p.1, { repo := r, analysis := some { content := a.content, status := a.status } })
  | none => (p.1, { repo := r, analysis := none })

/-- The `[repo_with_analysis(r, db) for r in repos]` comprehension: one lookup
per row, sequentially threading the session. -/
def enrich_all (db : Store) : List Repository → Store × List EnrichedRepo
  | [] => (db, [])
  | r :: rs =>
    let p := repo_with_analysis db r
    let q := enrich_all p.1 rs
    (q.1, p.2 :: q.2)

/-- `GET /repositories` — `get_repositories(db, q, skip, limit)`:
optional ILIKE filter, then `offset(skip).limit(limit).all()`, then enrichment. -/
def get_repositories (db : Store) (q : Option String) (skip lim : Nat) :
    Store × List EnrichedRepo :=
  let p := db_query_repos db
  let page := ((applyQueryFilter q p.2).drop skip).take lim
  enrich_all p.1 page

/-- `GET /repositories/top` — `get_top_repositories(db, sort, limit)`:
`stars`/`updated` order descending, any other sort key passes the store's
natural order through; then `limit(limit).all()` and enrichment. -/
def get_top_repositories (db : Store) (sortKey : String) (lim : Nat) :
    Store × List EnrichedRepo :=
  let p := db_query_repos db
  let page :=
    if sortKey = "stars" then (List.insertionSort starsGE p.2).take lim
    else if sortKey = "updated" then (List.insertionSort updatedGE p.2).take lim
    else p.2.take lim
  enrich_all p.1 page

/-- `GET /repositories/{repo_id}` — `get_repository_detail(repo_id, db)`:
first-by-id lookup; `{"error": "Not found"}` when absent, enrichment when found. -/
def get_repository_detail (db : Store) (rid : Int) : Store × RepoDetailResult :=
  let p := db_query_repo_first_by_id db rid
  match p.2 with
  | none => (p.1, RepoDetailResult.notFound)
  | some r =>
    let q := repo_with_analysis p.1 r
    (q.1, RepoDetailResult.found q.2)

/-- `POST /analysis/analyze` — `analyze_project(db, url)` from
`app/api/routes/analysis.py`: return the stored `{content, status}` or the
placeholder `{"content": "暂无分析结果", "status": "pending"}`. -/
def analyze_project (db : Store) (u : String) : Store × AnalysisView :=
  let p := db_query_analysis_first db u
  match p.2 with
  | some a => (p.1, { content := a.content, status := a.status })
  | none => (p.1, { content := some "暂无分析结果", status := "pending" })

/-! ### Helper layer: pure views of the operations -/

/-- The enrichment of a single row as a pure function of the analysis table. -/
def enrich_pure (analyses : List AIAnalysis) (r : Repository) : EnrichedRepo :=
  match analyses.find? (fun a => a.url == r.url) with
  | some a => { repo := r, analysis := some { content := a.content, status := a.status } }
  | none => { repo := r, analysis := none }

theorem repo_with_analysis_eq (db : Store) (r : Repository) :
    repo_with_analysis db r = (db, enrich_pure db.analyses r) := by
  unfold repo_with_analysis enrich_pure db_query_analysis_first
  cases db.analyses.find? (fun a => a.url == r.url) <;> rfl

theorem enrich_all_eq (db : Store) (l : List Repository) :
    enrich_all db l = (db, l.map (enrich_pure db.analyses)) := by
  induction l with
  | nil => rfl
  | cons r rs ih =>
    unfold enrich_all
    rw [repo_with_analysis_eq]
    simp [ih]

theorem get_repositories_eq (db : Store) (q : Option String) (skip lim : Nat) :
    get_repositories db q skip lim =
      (db, (((applyQueryFilter q db.repos).drop skip).take lim).map (enrich_pure db.analyses)) := by
  unfold get_repositories db_query_repos
  exact enrich_all_eq db _

theorem get_top_repositories_eq (db : Store) (sortKey : String) (lim : Nat) :
    get_top_repositories db sortKey lim =
      (db, (if sortKey = "stars" then (List.insertionSort starsGE db.repos).take lim
            else if sortKey = "updated" then (List.insertionSort updatedGE db.repos).take lim
            else db.repos.take lim).map (enrich_pure db.analyses)) := by
  unfold get_top_repositories db_query_repos
  exact enrich_all_eq db _

theorem get_repository_detail_eq (db : Store) (rid : Int) :
    get_repository_detail db rid =
      (db, match db.repos.find? (fun r => r.id == rid) with
           | none => RepoDetailResult.notFound
           | some r => RepoDetailResult.found (enrich_pure db.analyses r)) := by
  unfold get_repository_detail db_query_repo_first_by_id
  cases db.repos.find? (fun r => r.id == rid) with
  | none => rfl
  | some r => simp [repo_with_analysis_eq]

theorem analyze_project_eq (db : Store) (u : String) :
    analyze_project db u =
      (db, match db.analyses.find? (fun a => a.url == u) with
           | some a => { content := a.content, status := a.status }
           | none => { content := some "暂无分析结果", status := "pending" }) := by
  unfold analyze_project db_query_analysis_first
  cases db.analyses.find? (fun a => a.url == u) <;> rfl

theorem enrich_pure_repo (analyses : List AIAnalysis) (r : Repository) :
    (enrich_pure analyses r).repo = r := by
  unfold enrich_pure
  cases analyses.find? (fun a => a.url == r.url) <;> rfl

/-- C8 — Every operation of the core (search, topRepositories, getById,
getOrPending) is read-only: the store after any call equals the store before
it; no repository or analysis record is created, updated or deleted. -/
theorem read_ops_preserve_store (db : Store) (q : Option String) (skip lim : Nat)
    (sortKey : String) (rid : Int) (u : String) :
    (get_repositories db q skip lim).1 = db
    ∧ (get_top_repositories db sortKey lim).1 = db
    ∧ (get_repository_detail db rid).1 = db
    ∧ (analyze_project db u).1 = db := by
  refine ⟨?_, ?_, ?_, ?_⟩
  · rw [get_repositories_eq]
  · rw [get_top_repositories_eq]
  · rw [get_repository_detail_eq]
  · rw [analyze_project_eq]

/-- C9 — Every read operation is idempotent and deterministic: running any of
the four operations a second time, on the store state the first call left
behind and with identical arguments, returns the same result as the first
call. -/
theorem read_ops_idempotent (db : Store) (q : Option String) (skip lim : Nat)
    (sortKey : String) (rid : Int) (u : String) :
    (get_repositories (get_repositories db q skip lim).1 q skip lim).2
        = (get_repositories db q skip lim).2
    ∧ (get_top_repositories (get_top_repositories db sortKey lim).1 sortKey lim).2
        = (get_top_repositories db sortKey lim).2
    ∧ (get_repository_detail (get_repository_detail db rid).1 rid).2
        = (get_repository_detail db rid).2
    ∧ (analyze_project (analyze_project db u).1 u).2 = (analyze_project db u).2 := by
  refine ⟨?_, ?_, ?_, ?_⟩
  · simp [get_repositories_eq]
  · simp [get_top_repositories_eq]
  · simp [get_repository_detail_eq]
  · simp [analyze_project_eq]

/-! ### C1 — enrichment attaches the matching analysis -/

/-- The enrichment contract for one result record: the attached `analysis` is
`{content, status}` of the stored record with the same `url`, and `null` when
no such record exists. -/
def analysisCorrect (analyses : List AIAnalysis) (e : EnrichedRepo) : Prop :=
  (∀ a ∈ analyses, a.url = e.repo.url →
      e.analysis = some { content := a.content, status := a.status })
  ∧ ((∀ a ∈ analyses, a.url ≠ e.repo.url) → e.analysis = none)

theorem analysisCorrect_enrich_pure (analyses : List AIAnalysis)
    (hn : (analyses.map (fun a => a.url)).Nodup) (r : Repository) :
    analysisCorrect analyses (enrich_pure analyses r) := by
  unfold analysisCorrect enrich_pure
  cases h : analyses.find? (fun a => a.url == r.url) with
  | some a =>
    have ha : a ∈ analyses := List.mem_of_find?_eq_some h
    have hau : a.url = r.url := by simpa using List.find?_some h
    constructor
    · intro b hb hbu
      simp only at hbu ⊢
      have hba : b = a := List.inj_on_of_nodup_map hn hb ha (by rw [hbu, hau])
      rw [hba]
    · intro hnone
      exact absurd hau (hnone a ha)
  | none =>
    have hno := List.find?_eq_none.mp h
    constructor
    · intro b hb hbu
      exact absurd (by simpa using hbu) (hno b hb)
    · intro _
      rfl

/-- C1 — Every record returned by search, topRepositories or getById carries
`analysis = {content: A.content, status: A.status}` when an `AnalysisRecord`
`A` with `A.url == R.url` exists, and `analysis = null` when none exists
(`url` is unique in the analysis table, per its schema). -/
theorem enrichment_attaches_matching_analysis (db : Store)
    (hn : (db.analyses.map (fun a => a.url)).Nodup)
    (q : Option String) (skip lim : Nat) (sortKey : String) (rid : Int) :
    (∀ e ∈ (get_repositories db q skip lim).2, analysisCorrect db.analyses e)
    ∧ (∀ e ∈ (get_top_repositories db sortKey lim).2, analysisCorrect db.analyses e)
    ∧ (∀ e, (get_repository_detail db rid).2 = RepoDetailResult.found e →
        analysisCorrect db.analyses e) := by
  refine ⟨?_, ?_, ?_⟩
  · intro e he
    rw [get_repositories_eq] at he
    obtain ⟨r, _, hr⟩ := List.mem_map.mp he
    exact hr ▸ analysisCorrect_enrich_pure db.analyses hn r
  · intro e he
    rw [get_top_repositories_eq] at he
    obtain ⟨r, _, hr⟩ := List.mem_map.mp he
    exact hr ▸ analysisCorrect_enrich_pure db.analyses hn r
  · intro e he
    rw [get_repository_detail_eq] at he
    cases hf : db.repos.find? (fun r => r.id == rid) with
    | none => rw [hf] at he; exact absurd he (by simp)
    | some r =>
      rw [hf] at he
      simp only [RepoDetailResult.found.injEq] at he
      exact he ▸ analysisCorrect_enrich_pure db.analyses hn r

/-! ### Concrete rows for witnesses -/

/-- A repository row with the given id, full name, url and star count; all
other columns hold their schema defaults. -/
def mkRepo (i : Int) (fn u : String) (st : Int) : Repository :=
  { id := i, created_at := 0, updated_at := none, deleted_at := none,
    full_name := fn, name := fn, owner := "o", description := none, url := u,
    stars := st, forks := 0, language := none, topics := none, readme := none,
    last_pushed_at := none, is_archived := false, license := none,
    default_branch := none, open_issues := 0, watchers := 0, size := 0,
    has_issues := true, has_projects := true, has_wiki := true,
    has_pages := false, has_downloads := true, is_template := false,
    last_analyzed_at := none, analysis_status := "pending",
    search_keyword := none, search_rank := none, last_crawled_at := none }

/-- An analysis row with the given id, url, content and status; all other
columns hold their schema defaults. -/
def mkAnalysis (i : Int) (u c st : String) : AIAnalysis :=
  { id := i, created_at := 0, updated_at := none, url := u, content := some c,
    status := st, error_message := none, analysis_type := "summary",
    model_version := none, tokens_used := none }

/-- A two-repository, one-analysis store used by several witnesses. -/
def sampleStore : Store :=
  { repos := [mkRepo 1 "facebook/react" "https://g/react" 5,
              mkRepo 2 "acme/widgets" "https://g/widgets" 3],
    analyses := [mkAnalysis 1 "https://g/react" "Great UI library." "completed"] }

theorem enrichment_attaches_matching_analysis_witness :
    ((sampleStore.analyses.map (fun a => a.url)).Nodup)
    ∧ ((∀ e ∈ (get_repositories sampleStore (some "react") 0 20).2,
          analysisCorrect sampleStore.analyses e)
       ∧ (∀ e ∈ (get_top_repositories sampleStore "stars" 10).2,
          analysisCorrect sampleStore.analyses e)
       ∧ (∀ e, (get_repository_detail sampleStore 1).2 = RepoDetailResult.found e →
          analysisCorrect sampleStore.analyses e)) :=
  ⟨by decide,
   enrichment_attaches_matching_analysis sampleStore (by decide) (some "react") 0 20 "stars" 1⟩

/-! ### C5 — missing id yields the structured NotFound payload -/

/-- C5 — When no repository has the requested id, `getById` returns the
structured `{"error": "Not found"}` payload as a normal result value (the
route returns it with HTTP 200), never an exception or a partial record, and
the store is untouched. -/
theorem get_detail_missing_id_not_found (db : Store) (rid : Int)
    (h : ∀ r ∈ db.repos, r.id ≠ rid) :
    get_repository_detail db rid = (db, RepoDetailResult.notFound) := by
  rw [get_repository_detail_eq]
  have hf : db.repos.find? (fun r => r.id == rid) = none :=
    List.find?_eq_none.mpr (fun r hr => by simpa using h r hr)
  rw [hf]

theorem get_detail_missing_id_not_found_witness :
    (∀ r ∈ sampleStore.repos, r.id ≠ 99)
    ∧ get_repository_detail sampleStore 99 = (sampleStore, RepoDetailResult.notFound) :=
  ⟨by decide, get_detail_missing_id_not_found sampleStore 99 (by decide)⟩

/-! ### C7 — unknown sort key falls back to the store's natural order -/

/-- C7 — For any sort key other than `"stars"` and `"updated"`,
`topRepositories` applies no ordering: it returns the first `limit` records in
the store's natural order (enriched), as a normal non-error result. -/
theorem top_unknown_sort_natural_order (db : Store) (sortKey : String) (lim : Nat)
    (h1 : sortKey ≠ "stars") (h2 : sortKey ≠ "updated") :
    (get_top_repositories db sortKey lim).2
      = (db.repos.take lim).map (enrich_pure db.analyses) := by
  rw [get_top_repositories_eq]
  simp [h1, h2]

theorem top_unknown_sort_natural_order_witness :
    (("forks" ≠ "stars") ∧ ("forks" ≠ "updated"))
    ∧ (get_top_repositories sampleStore "forks" 10).2
        = (sampleStore.repos.take 10).map (enrich_pure sampleStore.analyses) :=
  ⟨⟨by decide, by decide⟩,
   top_unknown_sort_natural_order sampleStore "forks" 10 (by decide) (by decide)⟩

/-! ### C3 — topRepositories(sort=stars) returns the top-`limit` by stars -/

/-- C3 — For every store holding at least `limit` records and every positive
`limit`, `topRepositories(sort=stars, limit)` returns, with no offset, exactly
`limit` records: a descending-by-stars arrangement `chosen` of a subset whose
star counts dominate every record left out, each record enriched. -/
theorem top_stars_returns_top_limit_desc (db : Store) (lim : Nat)
    (hpos : 0 < lim) (hle : lim ≤ db.repos.length) :
    ∃ chosen dropped : List Repository,
      List.Perm db.repos (chosen ++ dropped)
      ∧ chosen.length = lim
      ∧ List.Sorted starsGE chosen
      ∧ (∀ x ∈ chosen, ∀ y ∈ dropped, y.stars ≤ x.stars)
      ∧ (get_top_repositories db "stars" lim).2 = chosen.map (enrich_pure db.analyses) := by
  have hperm := List.perm_insertionSort starsGE db.repos
  have hsorted := List.sorted_insertionSort starsGE db.repos
  refine ⟨(List.insertionSort starsGE db.repos).take lim,
          (List.insertionSort starsGE db.repos).drop lim, ?_, ?_, ?_, ?_, ?_⟩
  · rw [List.take_append_drop]
    exact hperm.symm
  · rw [List.length_take, hperm.length_eq]
    exact Nat.min_eq_left hle
  · exact hsorted.sublist (List.take_sublist lim _)
  · have hp : List.Pairwise starsGE
        ((List.insertionSort starsGE db.repos).take lim
          ++ (List.insertionSort starsGE db.repos).drop lim) := by
      rw [List.take_append_drop]
      exact hsorted
    exact fun x hx y hy => (List.pairwise_append.mp hp).2.2 x hx y hy
  · rw [get_top_repositories_eq]
    simp

/-- A three-repository store whose star counts are 5, 3 and 7. -/
def topStore : Store :=
  { repos := [mkRepo 1 "a/a" "ua" 5, mkRepo 2 "b/b" "ub" 3, mkRepo 3 "c/c" "uc" 7],
    analyses := [] }

theorem top_stars_returns_top_limit_desc_witness :
    (0 < 3 ∧ 3 ≤ topStore.repos.length)
    ∧ ∃ chosen dropped : List Repository,
        List.Perm topStore.repos (chosen ++ dropped)
        ∧ chosen.length = 3
        ∧ List.Sorted starsGE chosen
        ∧ (∀ x ∈ chosen, ∀ y ∈ dropped, y.stars ≤ x.stars)
        ∧ (get_top_repositories topStore "stars" 3).2
            = chosen.map (enrich_pure topStore.analyses) :=
  ⟨⟨by decide, by decide⟩,
   top_stars_returns_top_limit_desc topStore 3 (by decide) (by decide)⟩

/-! ### C6 — pagination yields disjoint pages -/

/-- C6 — Search applies offset then limit over the filtered records: over a
fixed store whose filter result has five (pairwise distinct-id) records,
`search(offset=0, limit=2)` and `search(offset=2, limit=2)` each return two
records, and together they cover four distinct records (their ids are pairwise
distinct, so the two pairs are disjoint). -/
theorem search_pagination_disjoint_pages (db : Store) (q : Option String)
    (hlen : (applyQueryFilter q db.repos).length = 5)
    (hids : ((applyQueryFilter q db.repos).map (fun r => r.id)).Nodup) :
    ((get_repositories db q 0 2).2).length = 2
    ∧ ((get_repositories db q 2 2).2).length = 2
    ∧ (((get_repositories db q 0 2).2 ++ (get_repositories db q 2 2).2).map
        (fun e => e.repo.id)).Nodup
    ∧ ((get_repositories db q 0 2).2 ++ (get_repositories db q 2 2).2).length = 4 := by
  have hrepo : ∀ e, (enrich_pure db.analyses e).repo.id = e.id := by
    intro e
    rw [enrich_pure_repo]
  have hpages : (get_repositories db q 0 2).2 ++ (get_repositories db q 2 2).2
      = ((applyQueryFilter q db.repos).take 4).map (enrich_pure db.analyses) := by
    rw [get_repositories_eq, get_repositories_eq]
    simp only [List.drop_zero]
    rw [← List.map_append]
    have h22 : (2 : Nat) + 2 = 4 := rfl
    rw [← h22, List.take_add]
  refine ⟨?_, ?_, ?_, ?_⟩
  · rw [get_repositories_eq]
    simp only [List.drop_zero, List.length_map, List.length_take, hlen]
    decide
  · rw [get_repositories_eq]
    simp only [List.length_map, List.length_take, List.length_drop, hlen]
    decide
  · rw [hpages]
    have : (((applyQueryFilter q db.repos).take 4).map (enrich_pure db.analyses)).map
        (fun e => e.repo.id) = ((applyQueryFilter q db.repos).map (fun r => r.id)).take 4 := by
      rw [List.map_map, ← List.map_take]
      exact List.map_congr_left (fun r _ => hrepo r)
    rw [this]
    exact hids.sublist (List.take_sublist 4 _)
  · rw [hpages]
    simp only [List.length_map, List.length_take, hlen]
    decide

/-- A five-repository store with pairwise distinct ids. -/
def pageStore : Store :=
  { repos := [mkRepo 1 "a/a" "u1" 1, mkRepo 2 "b/b" "u2" 2, mkRepo 3 "c/c" "u3" 3,
              mkRepo 4 "d/d" "u4" 4, mkRepo 5 "e/e" "u5" 5],
    analyses := [] }

theorem search_pagination_disjoint_pages_witness :
    ((applyQueryFilter none pageStore.repos).length = 5
      ∧ ((applyQueryFilter none pageStore.repos).map (fun r => r.id)).Nodup)
    ∧ (((get_repositories pageStore none 0 2).2).length = 2
       ∧ ((get_repositories pageStore none 2 2).2).length = 2
       ∧ (((get_repositories pageStore none 0 2).2 ++ (get_repositories pageStore none 2 2).2).map
           (fun e => e.repo.id)).Nodup
       ∧ ((get_repositories pageStore none 0 2).2 ++ (get_repositories pageStore none 2 2).2).length
           = 4) :=
  ⟨⟨by decide, by decide⟩,
   search_pagination_disjoint_pages pageStore none (by decide) (by decide)⟩

/-! ### C4 — analysis lookup: stored record or synthetic pending placeholder

The route's placeholder is the literal `{"content": "暂无分析结果",
"status": "pending"}`; the English phrase "no analysis available yet" never
appears in the code. -/

/-- C4 counterexample — on an empty analysis store the lookup returns the
placeholder whose content is `"暂无分析结果"`, not the claimed literal
`"no analysis available yet"`. -/
theorem analyze_placeholder_content_counterexample :
    (analyze_project { repos := [], analyses := [] } "https://g/x").2
        = { content := some "暂无分析结果", status := "pending" }
    ∧ (analyze_project { repos := [], analyses := [] } "https://g/x").2
        ≠ { content := some "no analysis available yet", status := "pending" } := by
  constructor
  · rfl
  · decide

/-- C4 (amended) — For every url `U`: if an `AnalysisRecord` with `url == U`
exists, `getOrPending(U)` returns `{content, status}` from that stored record;
otherwise it returns the synthetic placeholder
`{content: "暂无分析结果", status: "pending"}` — and in both cases the store is
returned unchanged (no record is created or modified). -/
theorem analyze_returns_stored_or_pending (db : Store) (u : String)
    (hn : (db.analyses.map (fun a => a.url)).Nodup) :
    (∀ a ∈ db.analyses, a.url = u →
        analyze_project db u = (db, { content := a.content, status := a.status }))
    ∧ ((∀ a ∈ db.analyses, a.url ≠ u) →
        analyze_project db u = (db, { content := some "暂无分析结果", status := "pending" })) := by
  constructor
  · intro a ha hau
    rw [analyze_project_eq]
    cases hf : db.analyses.find? (fun b => b.url == u) with
    | none =>
      have := List.find?_eq_none.mp hf a ha
      simp [hau] at this
    | some b =>
      have hb : b ∈ db.analyses := List.mem_of_find?_eq_some hf
      have hbu : b.url = u := by simpa using List.find?_some hf
      have hab : a = b := List.inj_on_of_nodup_map hn ha hb (by rw [hau, hbu])
      subst hab
      rfl
  · intro hno
    rw [analyze_project_eq]
    have hf : db.analyses.find? (fun b => b.url == u) = none :=
      List.find?_eq_none.mpr (fun b hb => by simpa using hno b hb)
    rw [hf]

theorem analyze_returns_stored_or_pending_witness :
    ((sampleStore.analyses.map (fun a => a.url)).Nodup)
    ∧ ((∀ a ∈ sampleStore.analyses, a.url = "https://g/react" →
          analyze_project sampleStore "https://g/react"
            = (sampleStore, { content := a.content, status := a.status }))
       ∧ ((∀ a ∈ sampleStore.analyses, a.url ≠ "https://g/react") →
          analyze_project sampleStore "https://g/react"
            = (sampleStore, { content := some "暂无分析结果", status := "pending" }))) :=
  ⟨by decide, analyze_returns_stored_or_pending sampleStore "https://g/react" (by decide)⟩

/-! ### C10 — no read path looks at `deleted_at` -/

/-- Erase the soft-delete marker of a row, leaving every other column alone. -/
def clearDeleted (r : Repository) : Repository := { r with deleted_at := none }

/-- `clearDeleted` lifted to an enriched result record. -/
def clearEnriched (e : EnrichedRepo) : EnrichedRepo := { e with repo := clearDeleted e.repo }

/-- `clearDeleted` lifted to the detail-route result. -/
def clearDetail : RepoDetailResult → RepoDetailResult
  | RepoDetailResult.notFound => RepoDetailResult.notFound
  | RepoDetailResult.found e => RepoDetailResult.found (clearEnriched e)

theorem enrich_pure_clearDeleted (analyses : List AIAnalysis) (r : Repository) :
    enrich_pure analyses (clearDeleted r) = clearEnriched (enrich_pure analyses r) := by
  unfold enrich_pure clearEnriched clearDeleted
  cases analyses.find? (fun a => a.url == r.url) <;> rfl

theorem applyQueryFilter_map_clearDeleted (q : Option String) (l : List Repository) :
    applyQueryFilter q (l.map clearDeleted) = (applyQueryFilter q l).map clearDeleted := by
  cases q with
  | none => rfl
  | some s =>
    unfold applyQueryFilter
    by_cases hs : s = ""
    · simp [hs]
    · simp only [hs, if_false]
      rw [List.filter_map]
      rfl

theorem orderedInsert_map_of_iff {α : Type} (r : α → α → Prop) [DecidableRel r]
    (g : α → α) (hg : ∀ a b, r (g a) (g b) ↔ r a b) (a : α) :
    ∀ l : List α, List.orderedInsert r (g a) (l.map g) = (List.orderedInsert r a l).map g
  | [] => rfl
  | b :: l => by
    simp only [List.map_cons, List.orderedInsert]
    by_cases h : r a b
    · rw [if_pos ((hg a b).mpr h), if_pos h, List.map_cons, List.map_cons]
    · rw [if_neg (fun hc => h ((hg a b).mp hc)), if_neg h, List.map_cons,
        orderedInsert_map_of_iff r g hg a l]

theorem insertionSort_map_of_iff {α : Type} (r : α → α → Prop) [DecidableRel r]
    (g : α → α) (hg : ∀ a b, r (g a) (g b) ↔ r a b) :
    ∀ l : List α, List.insertionSort r (l.map g) = (List.insertionSort r l).map g
  | [] => rfl
  | b :: l => by
    simp only [List.map_cons, List.insertionSort]
    rw [insertionSort_map_of_iff r g hg l, orderedInsert_map_of_iff r g hg b]

/-- C10 — No read path filters on `deleted_at`: running any of the three
repository queries on the store with every `deleted_at` erased returns exactly
the same records (with `deleted_at` erased in the output rows and nothing else
changed) — a soft-deleted repository is returned exactly as if `deleted_at`
were null. -/
theorem queries_ignore_deleted_at (db : Store) (q : Option String) (skip lim : Nat)
    (sortKey : String) (rid : Int) :
    (get_repositories { repos := db.repos.map clearDeleted, analyses := db.analyses }
        q skip lim).2 = ((get_repositories db q skip lim).2).map clearEnriched
    ∧ (get_top_repositories { repos := db.repos.map clearDeleted, analyses := db.analyses }
        sortKey lim).2 = ((get_top_repositories db sortKey lim).2).map clearEnriched
    ∧ (get_repository_detail { repos := db.repos.map clearDeleted, analyses := db.analyses }
        rid).2 = clearDetail (get_repository_detail db rid).2 := by
  refine ⟨?_, ?_, ?_⟩
  · rw [get_repositories_eq, get_repositories_eq]
    simp only []
    rw [applyQueryFilter_map_clearDeleted, ← List.map_drop, ← List.map_take, List.map_map,
      List.map_map]
    exact List.map_congr_left (fun r _ => enrich_pure_clearDeleted db.analyses r)
  · rw [get_top_repositories_eq, get_top_repositories_eq]
    simp only []
    rw [insertionSort_map_of_iff starsGE clearDeleted (fun a b => Iff.rfl),
      insertionSort_map_of_iff updatedGE clearDeleted (fun a b => Iff.rfl)]
    by_cases h1 : sortKey = "stars"
    · rw [if_pos h1, if_pos h1, ← List.map_take, List.map_map, List.map_map]
      exact List.map_congr_left (fun r _ => enrich_pure_clearDeleted db.analyses r)
    · by_cases h2 : sortKey = "updated"
      · rw [if_neg h1, if_neg h1, if_pos h2, if_pos h2, ← List.map_take, List.map_map,
          List.map_map]
        exact List.map_congr_left (fun r _ => enrich_pure_clearDeleted db.analyses r)
      · rw [if_neg h1, if_neg h1, if_neg h2, if_neg h2, ← List.map_take, List.map_map,
          List.map_map]
        exact List.map_congr_left (fun r _ => enrich_pure_clearDeleted db.analyses r)
  · rw [get_repository_detail_eq, get_repository_detail_eq]
    simp only []
    rw [List.find?_map]
    have hp : ((fun r : Repository => r.id == rid) ∘ clearDeleted)
        = (fun r : Repository => r.id == rid) := rfl
    rw [hp]
    cases db.repos.find? (fun r => r.id == rid) with
    | none => rfl
    | some r =>
      simp [clearDetail, enrich_pure_clearDeleted]

/-! ### C2 — the ILIKE filter versus case-insensitive substring containment -/

/-- Lower-case image of a character list. -/
def lowerL (l : List Char) : List Char := l.map Char.toLower

/-- A pattern fragment free of the ILIKE metacharacters `%`, `_` and `\`. -/
def litOnly (l : List Char) : Prop := ∀ c ∈ l, c ≠ '%' ∧ c ≠ '_' ∧ c ≠ '\\'

instance (l : List Char) : Decidable (litOnly l) :=
  inferInstanceAs (Decidable (∀ c ∈ l, c ≠ '%' ∧ c ≠ '_' ∧ c ≠ '\\'))

/-- `needle` occurs in `hay` as a case-insensitive substring. -/
def substrCI (hay needle : String) : Prop :=
  ∃ pre post, lowerL hay.data = pre ++ lowerL needle.data ++ post


theorem matchPct_spec (f : List Char → Bool) :
    ∀ s : List Char, (matchPct f s = true ↔ ∃ s1 s2, s = s1 ++ s2 ∧ f s2 = true)
  | [] => by
    show f [] = true ↔ _
    constructor
    · intro h
      exact ⟨[], [], rfl, h⟩
    · rintro ⟨s1, s2, heq, h⟩
      obtain ⟨h1, h2⟩ := List.append_eq_nil.mp heq.symm
      rw [h2] at h
      exact h
  | c :: s => by
    show (f (c :: s) || matchPct f s) = true ↔ _
    rw [Bool.or_eq_true, matchPct_spec f s]
    constructor
    · rintro (h | ⟨s1, s2, heq, h⟩)
      · exact ⟨[], c :: s, rfl, h⟩
      · exact ⟨c :: s1, s2, by rw [heq, List.cons_append], h⟩
    · rintro ⟨s1, s2, heq, h⟩
      cases s1 with
      | nil =>
        left
        have h2 : c :: s = s2 := heq
        rw [h2]
        exact h
      | cons e s1' =>
        right
        have h2 : c :: s = e :: (s1' ++ s2) := heq
        injection h2 with hh1 hh2
        exact ⟨s1', s2, hh2, h⟩

theorem likeMatch_pct (ps s : List Char) :
    likeMatch ('%' :: ps) s = matchPct (likeMatch ps) s := by
  rw [likeMatch.eq_def]
  simp

theorem likeMatch_percent_front (ps s : List Char) :
    likeMatch ('%' :: ps) s = true ↔ ∃ s1 s2, s = s1 ++ s2 ∧ likeMatch ps s2 = true := by
  rw [likeMatch_pct]
  exact matchPct_spec (likeMatch ps) s

theorem likeMatch_lit_percent : ∀ q : List Char, litOnly q →
    ∀ s : List Char, (likeMatch (q ++ ['%']) s = true ↔ ∃ t, lowerL s = lowerL q ++ t)
  | [], _, s => by
    rw [show ([] : List Char) ++ ['%'] = ['%'] from rfl, likeMatch_percent_front]
    constructor
    · intro _
      exact ⟨lowerL s, rfl⟩
    · intro _
      exact ⟨s, [], (List.append_nil s).symm, rfl⟩
  | c :: q, hq, s => by
    have hc : c ≠ '%' ∧ c ≠ '_' ∧ c ≠ '\\' := hq c (List.mem_cons_self c q)
    have hq' : litOnly q := fun d hd => hq d (List.mem_cons_of_mem c hd)
    rw [List.cons_append]
    cases s with
    | nil =>
      rw [show likeMatch (c :: (q ++ ['%'])) [] = false from by
        rw [likeMatch.eq_def]
        simp only [if_neg hc.1, if_neg hc.2.1, if_neg hc.2.2]]
      constructor
      · intro h
        exact absurd h (by simp)
      · rintro ⟨t, ht⟩
        exact absurd ht (by simp [lowerL])
    | cons d s' =>
      rw [show likeMatch (c :: (q ++ ['%'])) (d :: s')
            = ((c.toLower = d.toLower) && likeMatch (q ++ ['%']) s') from by
        rw [likeMatch.eq_def]
        simp only [if_neg hc.1, if_neg hc.2.1, if_neg hc.2.2]]
      rw [Bool.and_eq_true, decide_eq_true_eq, likeMatch_lit_percent q hq' s']
      constructor
      · rintro ⟨h1, t, ht⟩
        refine ⟨t, ?_⟩
        show d.toLower :: lowerL s' = (c.toLower :: lowerL q) ++ t
        rw [List.cons_append, h1, ht]
      · rintro ⟨t, ht⟩
        have ht2 : d.toLower :: lowerL s' = c.toLower :: (lowerL q ++ t) := ht
        injection ht2 with hh1 hh2
        exact ⟨hh1.symm, t, hh2⟩

theorem ilike_pattern_substr (name q : String) (hq : litOnly q.data)
    (h : ilike name ("%" ++ q ++ "%") = true) : substrCI name q := by
  unfold ilike at h
  have hdata : ("%" ++ q ++ "%").data = '%' :: (q.data ++ ['%']) := by
    rw [String.data_append, String.data_append]
    rfl
  rw [hdata] at h
  obtain ⟨s1, s2, hsplit, h2⟩ := (likeMatch_percent_front (q.data ++ ['%']) name.data).mp h
  obtain ⟨t, ht⟩ := (likeMatch_lit_percent q.data hq s2).mp h2
  refine ⟨lowerL s1, t, ?_⟩
  rw [hsplit]
  show lowerL (s1 ++ s2) = lowerL s1 ++ lowerL q.data ++ t
  unfold lowerL
  rw [List.map_append, List.append_assoc]
  exact congrArg (s1.map Char.toLower ++ ·) ht

/-- A one-repository store whose repository is named `"ab"`. -/
def wildStore : Store :=
  { repos := [mkRepo 1 "ab" "uw" 0], analyses := [] }

/-- C2 counterexample — searching with the one-character query `"_"` (an ILIKE
wildcard that the route never escapes) returns the repository named `"ab"`,
whose full name does not contain `"_"` as a case-insensitive substring: the
claim fails for queries holding ILIKE metacharacters. -/
theorem search_substring_claim_counterexample :
    (get_repositories wildStore (some "_") 0 20).2
        = [enrich_pure wildStore.analyses (mkRepo 1 "ab" "uw" 0)]
    ∧ ¬ substrCI (mkRepo 1 "ab" "uw" 0).full_name "_" := by
  constructor
  · decide
  · rintro ⟨pre, post, hsub⟩
    have hmem : '_' ∈ lowerL (mkRepo 1 "ab" "uw" 0).full_name.data := by
      rw [hsub]
      refine List.mem_append_left _ (List.mem_append_right _ ?_)
      exact List.mem_cons_self _ _
    exact absurd hmem (by decide)

/-- C2 (amended) — For every non-empty query `Q` containing none of the ILIKE
metacharacters `%`, `_`, `\`, every repository in any `search(query=Q)` result
page has `Q` as a case-insensitive (unanchored) substring of its `full_name`;
e.g. `"facebook/react"` is matched by `Q="REACT"` and by `Q="face"`. -/
theorem search_wildcard_free_substring_sound (db : Store) (q : String) (skip lim : Nat)
    (hne : q ≠ "") (hq : litOnly q.data) :
    ∀ e ∈ (get_repositories db (some q) skip lim).2, substrCI e.repo.full_name q := by
  intro e he
  rw [get_repositories_eq] at he
  obtain ⟨r, hr, hre⟩ := List.mem_map.mp he
  have hrf : r ∈ applyQueryFilter (some q) db.repos :=
    (List.drop_sublist skip _).subset ((List.take_sublist lim _).subset hr)
  have hrf2 : r ∈ (if q = "" then db.repos
      else db.repos.filter (fun r2 => ilike r2.full_name ("%" ++ q ++ "%"))) := hrf
  rw [if_neg hne] at hrf2
  have hfil : ilike r.full_name ("%" ++ q ++ "%") = true := (List.mem_filter.mp hrf2).2
  have hsub := ilike_pattern_substr r.full_name q hq hfil
  have herepo : e.repo = r := by
    rw [← hre, enrich_pure_repo]
  rw [herepo]
  exact hsub

theorem search_wildcard_free_substring_sound_witness :
    (("REACT" : String) ≠ "" ∧ litOnly ("REACT" : String).data)
    ∧ ∀ e ∈ (get_repositories sampleStore (some "REACT") 0 20).2,
        substrCI e.repo.full_name "REACT" :=
  ⟨⟨by decide, by decide⟩,
   search_wildcard_free_substring_sound sampleStore "REACT" 0 20 (by decide) (by decide)⟩
